import Mathlib

/-!
Verification of `src/helpers/resources-update.py` (the `list_resources`
utility of the novelwrapper repository).

The Python source is:

  def list_resources(start_from, output_file, allowed_ext):
    arr = []
    for root, dirs, files in os.walk(start_from):
      for name in files:
        if name.split('.')[-1] in allowed_ext:
          arr.append(root.replace('\\', '/')[2:] + '/' + name)
    res_file = open(output_file, 'w')
    res_file.write(json.dumps(arr))
    res_file.close()

  list_resources(
    start_from = '.',
    output_file = 'resources.json',
    allowed_ext = ['jpg', 'png', 'gif', 'mp3', 'wav', 'ogg']
  )

Python strings are sequences of code points, so the string operations used
by the source (`split` on a one-character separator, `replace` of one
character by another, the `[2:]` slice, `+` concatenation) are embedded as
operations on `List Char` / `String` below, each mirroring the CPython
semantics of the corresponding call.
-/

/-- Python's `s.split(sep)` for a one-character separator `sep`, on the
code-point list of `s`: splitting the empty string gives `[[]]`, and each
occurrence of `sep` starts a new group.  Mirrors `name.split('.')` in
`list_resources`. -/
def splitOnChar (sep : Char) : List Char → List (List Char)
  | [] => [[]]
  | c :: cs =>
    match splitOnChar sep cs with
    | [] => [[]]
    | g :: gs => if c = sep then [] :: g :: gs else (c :: g) :: gs

/-- Python's `name.split('.')[-1]` on the code-point list: the last group of
the split.  `splitOnChar` never returns `[]`, so the default of `getLastD`
is never used. -/
def extOfL (name : List Char) : List Char :=
  (splitOnChar '.' name).getLastD []

/-- Python's `name.split('.')[-1]` at the `String` level: the text after the
final `'.'` of `name` (the whole name when `name` has no `'.'`). -/
def extOf (name : String) : String :=
  String.mk (extOfL name.data)

/-- Python's `root.replace('\\', '/')` on the code-point list: every
backslash becomes a forward slash (a one-character `replace` is a
per-character map). -/
def normSlashesL (root : List Char) : List Char :=
  root.map (fun c => if c = '\\' then '/' else c)

/-- The path entry built by line 14 of the source,
`root.replace('\\', '/')[2:] + '/' + name`, on code-point lists: normalize
backslashes, drop the first two code points (Python's `[2:]` slice), then
append `'/'` and the file name. -/
def mkEntryL (root name : List Char) : List Char :=
  (normSlashesL root).drop 2 ++ '/' :: name

/-- The path entry of line 14 at the `String` level. -/
def mkEntry (root name : String) : String :=
  String.mk (mkEntryL root.data name.data)

/-- The filter test of line 13, `name.split('.')[-1] in allowed_ext`:
Python's `in` on a list of strings is membership by exact, case-sensitive
string equality. -/
def allowedCheck (allowed_ext : List String) (name : String) : Bool :=
  allowed_ext.contains (extOf name)

/-- One tuple yielded by `os.walk`: `(root, dirs, files)`. -/
abbrev WalkEntry := String × List String × List String

/-- The `arr` built by the nested loops of `list_resources` (lines 10-14),
given the sequence of `(root, dirs, files)` tuples that `os.walk` yields:
for each tuple, for each file name, append the entry when the extension
check passes.  `dirs` is never read, exactly as in the source. -/
def listResources (walk : List WalkEntry) (allowed_ext : List String) : List String :=
  walk.foldl
    (fun arr t =>
      t.2.2.foldl
        (fun arr name =>
          if allowedCheck allowed_ext name then arr ++ [mkEntry t.1 name] else arr)
        arr)
    []

/-! ## The JSON encoder: `json.dumps(arr)` for a list of strings

CPython's `json.dumps` with default arguments uses `ensure_ascii=True` and
the default separators `(', ', ': ')`: array elements are joined by a comma
followed by one space, each string is quoted, and within a string the
characters `\` and `"` get two-character escapes, the control characters
BS HT LF FF CR get their short escapes, every other code point in the
printable ASCII range 0x20..0x7e stands for itself, and every remaining
code point becomes `\uXXXX` with lowercase hex digits (astral code points
as a UTF-16 surrogate pair). -/

/-- Lowercase hexadecimal digit of a value below 16. -/
def hexDigitChar (n : Nat) : Char :=
  if n < 10 then Char.ofNat (48 + n) else Char.ofNat (87 + n)

/-- Four lowercase hex digits of a value below 0x10000. -/
def hex4 (n : Nat) : List Char :=
  [hexDigitChar (n / 4096 % 16), hexDigitChar (n / 256 % 16),
   hexDigitChar (n / 16 % 16), hexDigitChar (n % 16)]

/-- The escape of one code point inside a JSON string literal, as produced
by CPython's `json.encoder` with `ensure_ascii=True`. -/
def escapeCharJson (c : Char) : List Char :=
  if c = '"' then ['\\', '"']
  else if c = '\\' then ['\\', '\\']
  else if c.toNat = 8 then ['\\', 'b']
  else if c.toNat = 9 then ['\\', 't']
  else if c.toNat = 10 then ['\\', 'n']
  else if c.toNat = 12 then ['\\', 'f']
  else if c.toNat = 13 then ['\\', 'r']
  else if 32 ≤ c.toNat ∧ c.toNat ≤ 126 then [c]
  else if c.toNat < 65536 then '\\' :: 'u' :: hex4 c.toNat
  else '\\' :: 'u' :: hex4 (55296 + (c.toNat - 65536) / 1024) ++
       '\\' :: 'u' :: hex4 (56320 + (c.toNat - 65536) % 1024)

/-- A JSON string literal: the escaped code points between double quotes. -/
def encodeStringJson (s : String) : List Char :=
  '"' :: s.data.flatMap escapeCharJson ++ ['"']

/-- `json.dumps(arr)` for a Python list of strings `arr`, on code points:
the element literals joined by `", "` between `[` and `]`. -/
def jsonDumpsL (arr : List String) : List Char :=
  '[' :: List.intercalate [',', ' '] (arr.map encodeStringJson) ++ [']']

/-- `json.dumps(arr)` at the `String` level. -/
def jsonDumps (arr : List String) : String :=
  String.mk (jsonDumpsL arr)

/-! ## The filesystem model and `os.walk`

A directory is a list of named subdirectories and a list of file names,
in the order the OS reports them.  `os.walk` (top-down, the default)
yields `(root, dirs, files)` for the root directory and then recurses
into each subdirectory in order, joining paths with the separator, which
is `/` on POSIX. -/

/-- A directory tree: named subdirectories in order, then file names in
order. -/
inductive FSTree where
  | node (subdirs : List (String × FSTree)) (files : List String)

/-- The file names directly inside the root of a tree. -/
def FSTree.files : FSTree → List String
  | .node _ fs => fs

/-- The named subdirectories of the root of a tree. -/
def FSTree.subdirs : FSTree → List (String × FSTree)
  | .node sd _ => sd

mutual
/-- The `(root, dirs, files)` tuples `os.walk` yields for an existing
directory at `path`, top-down: the directory itself first, then each
subdirectory's walk in order, with `os.path.join`'s POSIX separator. -/
def walkTree (path : String) : FSTree → List WalkEntry
  | .node subdirs files =>
    (path, subdirs.map Prod.fst, files) :: walkForest path subdirs

/-- The concatenated walks of a list of named subdirectories of `path`. -/
def walkForest (path : String) : List (String × FSTree) → List WalkEntry
  | [] => []
  | (n, t) :: rest => walkTree (path ++ "/" ++ n) t ++ walkForest path rest
end

/-- `os.walk(start_from)` on a filesystem state: `some t` means a readable
directory tree `t` exists at `start_from`, `none` means `start_from` is
missing or unreadable.  In the latter case the initial `scandir` fails,
and `os.walk` with its default `onerror=None` swallows the error, so the
generator yields nothing and no exception reaches the caller (CPython
documented behavior: "By default, errors from the scandir() call are
ignored"). -/
def osWalk (fs : Option FSTree) (start_from : String) : List WalkEntry :=
  match fs with
  | none => []
  | some t => walkTree start_from t

/-! ## The write to `output_file` and the whole run

Lines 16-18 open `output_file` in mode `'w'`, which truncates any existing
content to the empty string, then write `json.dumps(arr)` and close the
file.  The content of `output_file` is modelled as a `String`; opening and
writing are the two steps below.  Opening in mode `'w'` can itself raise
(unwritable parent directory), which is outside the traversal claims
settled here; the model takes the write path as available. -/

/-- `open(output_file, 'w')`: whatever `output_file` held before, its
content becomes empty. -/
def openWriteTruncate (_prior : String) : String := ""

/-- `res_file.write(s)`: append `s` to the current content. -/
def writeStr (content s : String) : String := content ++ s

/-- The content of `output_file` after lines 16-18 run on a manifest built
from the given walk: truncate the prior content, then write the JSON dump
of `arr`. -/
def finalOutput (walk : List WalkEntry) (allowed_ext : List String)
    (prior : String) : String :=
  writeStr (openWriteTruncate prior) (jsonDumps (listResources walk allowed_ext))

/-- A whole run of `list_resources` on a filesystem state: walk the tree at
`start_from` (nothing if missing/unreadable), build `arr`, overwrite
`output_file`.  The result is the final content of `output_file`. -/
def runListResources (fs : Option FSTree) (start_from : String)
    (allowed_ext : List String) (prior : String) : String :=
  finalOutput (osWalk fs start_from) allowed_ext prior

/-- A whole run with the raised-or-returned outcome made explicit: the
traversal never raises (`os.walk` suppresses its errors), so the run
reaches the write and succeeds. -/
def runListResourcesE (fs : Option FSTree) (start_from : String)
    (allowed_ext : List String) (prior : String) : Except String String :=
  Except.ok (runListResources fs start_from allowed_ext prior)

/-- The hard-coded `start_from` of the entry point (lines 20-24). -/
def defaultStartFrom : String := "."

/-- The hard-coded `output_file` of the entry point. -/
def defaultOutputFile : String := "resources.json"

/-- The hard-coded `allowed_ext` of the entry point. -/
def defaultAllowedExt : List String := ["jpg", "png", "gif", "mp3", "wav", "ogg"]

/-! ## Basic lemmas about the embedding -/

/-- All `(root, name)` pairs of files the walk reports, in visitation
order. -/
def allFiles (walk : List WalkEntry) : List (String × String) :=
  walk.flatMap (fun t => t.2.2.map (fun n => (t.1, n)))

theorem inner_foldl_eq (e : List String) (root : String) :
    ∀ (files arr : List String),
      files.foldl
        (fun arr name =>
          if allowedCheck e name then arr ++ [mkEntry root name] else arr)
        arr
      = arr ++ (files.filter (allowedCheck e)).map (mkEntry root)
  | [], arr => by simp
  | n :: ns, arr => by
    by_cases h : allowedCheck e n
    · simp [List.foldl_cons, h, inner_foldl_eq e root ns]
    · simp [List.foldl_cons, h, inner_foldl_eq e root ns]

theorem block_eq (e : List String) (t : WalkEntry) :
    ((t.2.2.map (fun n => (t.1, n))).filter (fun q => allowedCheck e q.2)).map
        (fun q => mkEntry q.1 q.2)
      = (t.2.2.filter (allowedCheck e)).map (mkEntry t.1) := by
  simp [List.filter_map, List.map_map, Function.comp_def]

theorem listResources_go (e : List String) :
    ∀ (walk : List WalkEntry) (arr : List String),
      walk.foldl
        (fun arr t =>
          t.2.2.foldl
            (fun arr name =>
              if allowedCheck e name then arr ++ [mkEntry t.1 name] else arr)
            arr)
        arr
      = arr ++ ((allFiles walk).filter (fun q => allowedCheck e q.2)).map
          (fun q => mkEntry q.1 q.2)
  | [], arr => by simp [allFiles]
  | t :: ts, arr => by
    rw [List.foldl_cons, inner_foldl_eq e t.1 t.2.2, listResources_go e ts]
    simp [allFiles, List.filter_append, List.map_append, block_eq e t, List.append_assoc]

/-- `listResources` in closed form: filter the walk's files by the
extension check, then map each to its path entry, in visitation order. -/
theorem listResources_eq (walk : List WalkEntry) (e : List String) :
    listResources walk e
      = ((allFiles walk).filter (fun q => allowedCheck e q.2)).map
          (fun q => mkEntry q.1 q.2) := by
  simpa using listResources_go e walk []

theorem mem_allFiles {walk : List WalkEntry} {root name : String}
    {dirs files : List String} (hw : (root, dirs, files) ∈ walk)
    (hn : name ∈ files) : (root, name) ∈ allFiles walk := by
  simp only [allFiles, List.mem_flatMap]
  exact ⟨(root, dirs, files), hw, List.mem_map.mpr ⟨name, hn, rfl⟩⟩

theorem mem_listResources {walk : List WalkEntry} {e : List String}
    {root name : String} {dirs files : List String}
    (hw : (root, dirs, files) ∈ walk) (hn : name ∈ files)
    (ha : allowedCheck e name = true) :
    mkEntry root name ∈ listResources walk e := by
  rw [listResources_eq]
  exact List.mem_map_of_mem _ (List.mem_filter.mpr ⟨mem_allFiles hw hn, ha⟩)

theorem exists_of_mem_listResources {walk : List WalkEntry} {e : List String}
    {x : String} (hx : x ∈ listResources walk e) :
    ∃ q ∈ allFiles walk, allowedCheck e q.2 = true ∧ x = mkEntry q.1 q.2 := by
  rw [listResources_eq] at hx
  obtain ⟨q, hq, rfl⟩ := List.mem_map.mp hx
  exact ⟨q, (List.mem_filter.mp hq).1, (List.mem_filter.mp hq).2, rfl⟩

/-- In two decompositions of the same list around an occurrence of `c`
whose right part avoids `c`, the right parts agree (the occurrence is the
last one, hence unique). -/
theorem sep_right_inj {α : Type} {c : α} :
    ∀ {l₁ l₂ r₁ r₂ : List α}, l₁ ++ c :: r₁ = l₂ ++ c :: r₂ →
      c ∉ r₁ → c ∉ r₂ → r₁ = r₂
  | [], [], r₁, r₂, h, _, _ => by simpa using h
  | [], x :: xs, r₁, r₂, h, h₁, _ => by
    simp only [List.nil_append, List.cons_append, List.cons.injEq] at h
    exact absurd (h.2 ▸ List.mem_append_right xs (h.1 ▸ List.mem_cons_self c r₂)) h₁
  | x :: xs, [], r₁, r₂, h, _, h₂ => by
    simp only [List.nil_append, List.cons_append, List.cons.injEq] at h
    exact absurd (h.2.symm ▸ List.mem_append_right xs (h.1 ▸ List.mem_cons_self c r₁)) h₂
  | x :: xs, y :: ys, r₁, r₂, h, h₁, h₂ => by
    simp only [List.cons_append, List.cons.injEq] at h
    exact sep_right_inj h.2 h₁ h₂

theorem splitOnChar_of_not_mem {sep : Char} :
    ∀ {l : List Char}, sep ∉ l → splitOnChar sep l = [l]
  | [], _ => rfl
  | c :: cs, h => by
    rw [List.mem_cons, not_or] at h
    simp [splitOnChar, splitOnChar_of_not_mem h.2, if_neg (Ne.symm h.1)]

/-- A file name without a dot is its own "extension" under
`name.split('.')[-1]`. -/
theorem extOf_of_no_dot {name : String} (h : '.' ∉ name.data) :
    extOf name = name := by
  show String.mk ((splitOnChar '.' name.data).getLastD []) = name
  rw [splitOnChar_of_not_mem h]
  rfl

theorem string_data_inj {s t : String} (h : s.data = t.data) : s = t := by
  cases s; cases t; exact congrArg String.mk h

/-! ## The claims -/

/-- C1: for every file `(root, name)` reported by the walk, the file's path
entry appears in the manifest list iff the extension of `name` (the text
after the final `.`) is a member of `allowed_ext`, membership being exact,
case-sensitive string equality (`allowedCheck`).  The hypothesis `hslash`
records that reported file names never contain the separator `/` (the OS
cannot return such a file name), which is what makes the entry of a
non-matching file distinct from every entry the manifest holds. -/
theorem C1_filter_correct (walk : List WalkEntry) (e : List String)
    (root name : String) (dirs files : List String)
    (hw : (root, dirs, files) ∈ walk) (hn : name ∈ files)
    (hslash : ∀ q ∈ allFiles walk, '/' ∉ (Prod.snd q).data) :
    mkEntry root name ∈ listResources walk e ↔ allowedCheck e name = true := by
  constructor
  · intro h
    obtain ⟨q, hq, hchk, heq⟩ := exists_of_mem_listResources h
    have hdata : (normSlashesL root.data).drop 2 ++ '/' :: name.data
        = (normSlashesL q.1.data).drop 2 ++ '/' :: q.2.data :=
      congrArg String.data heq
    have hnm : name = q.2 :=
      string_data_inj
        (sep_right_inj hdata (hslash (root, name) (mem_allFiles hw hn)) (hslash q hq))
    rw [hnm]
    exact hchk
  · intro h
    exact mem_listResources hw hn h

/-- C1 witness: in a concrete two-directory walk, `a/cat.jpg`'s entry is in
the manifest exactly when `jpg` is an allowed extension. -/
theorem C1_filter_correct_witness :
    mkEntry "./a" "cat.jpg"
        ∈ listResources [(".", ["a"], []), ("./a", [], ["cat.jpg", "notes.txt"])]
            ["jpg", "png"]
      ↔ allowedCheck ["jpg", "png"] "cat.jpg" = true :=
  C1_filter_correct [(".", ["a"], []), ("./a", [], ["cat.jpg", "notes.txt"])]
    ["jpg", "png"] "./a" "cat.jpg" [] ["cat.jpg", "notes.txt"]
    (by decide) (by decide) (by decide)

/-- The path entry as §3 and §4.1 step 3 of the spec word it: the file's
containing directory path as the traversal reports it, with OS backslash
separators normalized to `/`, its first two characters stripped (the
leading `./` marker when the root is `.`), then `/` and the file name. -/
def specPathEntry (dirPath fileName : String) : String :=
  String.mk
    (((dirPath.data.map (fun c => if c = '\\' then '/' else c)).drop 2)
      ++ '/' :: fileName.data)

/-- C2: every file passing the extension filter contributes to the manifest
an entry which is exactly the spec's formula `specPathEntry`: directory
path with backslashes normalized to `/`, first two characters stripped,
then `/` and the file name. -/
theorem C2_entry_format (walk : List WalkEntry) (e : List String)
    (root name : String) (dirs files : List String)
    (hw : (root, dirs, files) ∈ walk) (hn : name ∈ files)
    (ha : allowedCheck e name = true) :
    mkEntry root name ∈ listResources walk e
      ∧ mkEntry root name = specPathEntry root name :=
  ⟨mem_listResources hw hn ha, rfl⟩

/-- C2 witness: the concrete entry of `dog.png` under `./b` is in the
manifest and equals the spec's formula, namely `b/dog.png`. -/
theorem C2_entry_format_witness :
    mkEntry "./b" "dog.png" ∈ listResources [("./b", [], ["dog.png"])] ["png"]
      ∧ mkEntry "./b" "dog.png" = specPathEntry "./b" "dog.png" :=
  C2_entry_format [("./b", [], ["dog.png"])] ["png"] "./b" "dog.png" [] ["dog.png"]
    (by decide) (by decide) (by decide)

/-- C3 counterexample: with `start_from` missing (or unreadable), the claim
says an error propagates and no manifest is written; in fact `os.walk`
swallows the error, the run returns normally, and `output_file` is
overwritten with the manifest `[]`, losing its previous content. -/
theorem C3_counterexample :
    runListResourcesE none "." defaultAllowedExt "previous content" = Except.ok "[]"
      ∧ runListResources none "." defaultAllowedExt "previous content"
          ≠ "previous content" :=
  ⟨rfl, by decide⟩

/-- C3 amended: if `start_from` does not exist or is not readable, the
initial `scandir` error is ignored by `os.walk` (default `onerror=None`),
the traversal yields nothing, no error reaches the caller, and the run
succeeds after overwriting `output_file` with `[]`. -/
theorem C3_missing_root_writes_empty (start_from : String) (e : List String)
    (prior : String) :
    runListResourcesE none start_from e prior = Except.ok "[]" := rfl

/-- C4 counterexample: on the spec's two-entry scenario the written bytes
are `["a/cat.jpg", "b/dog.png"]` — `json.dumps` with default separators
puts one space after the comma — which differs from the compact form
`["a/cat.jpg","b/dog.png"]` the claim asserts. -/
theorem C4_counterexample :
    runListResources
        (some (.node [("a", .node [] ["cat.jpg", "notes.txt"]),
                      ("b", .node [] ["dog.png"])] []))
        "." ["jpg", "png"] ""
      = "[\"a/cat.jpg\", \"b/dog.png\"]"
      ∧ "[\"a/cat.jpg\", \"b/dog.png\"]" ≠ "[\"a/cat.jpg\",\"b/dog.png\"]" :=
  ⟨by decide, by decide⟩

/-- C4 amended: after a successful run, `output_file` contains exactly one
JSON value — a single-line JSON array of strings in Python's default
`json.dumps` format, elements separated by a comma followed by one space
(`["a/cat.jpg", "b/dog.png"]` for the two-entry scenario) — and no
surrounding text. -/
theorem C4_output_format :
    runListResourcesE
        (some (.node [("a", .node [] ["cat.jpg", "notes.txt"]),
                      ("b", .node [] ["dog.png"])] []))
        "." ["jpg", "png"] "unrelated prior text"
      = Except.ok "[\"a/cat.jpg\", \"b/dog.png\"]" :=
  congrArg Except.ok (by decide)

/-- C5: on one filesystem state the run is deterministic and idempotent at
the byte level: running again on top of the first run's output writes the
same bytes, and the bytes written never depend on what `output_file` held
before the run. -/
theorem C5_byte_identical_runs (fs : Option FSTree) (start_from : String)
    (e : List String) (prior prior2 : String) :
    runListResources fs start_from e (runListResources fs start_from e prior)
        = runListResources fs start_from e prior
      ∧ runListResources fs start_from e prior
          = runListResources fs start_from e prior2 :=
  ⟨rfl, rfl⟩

/-- C6: a file of the walk whose extension passes the filter appears
exactly once in the manifest.  The hypothesis `hdist`, which the claim
itself assumes, is that distinct files of the traversal yield distinct
path entries. -/
theorem C6_exactly_once (walk : List WalkEntry) (e : List String)
    (root name : String) (dirs files : List String)
    (hw : (root, dirs, files) ∈ walk) (hn : name ∈ files)
    (ha : allowedCheck e name = true)
    (hdist : ((allFiles walk).map (fun q => mkEntry q.1 q.2)).Nodup) :
    List.count (mkEntry root name) (listResources walk e) = 1 := by
  rw [listResources_eq]
  refine List.count_eq_one_of_mem
    (List.Nodup.sublist (List.Sublist.map _ (List.filter_sublist _)) hdist) ?_
  exact List.mem_map_of_mem _ (List.mem_filter.mpr ⟨mem_allFiles hw hn, ha⟩)

/-- C6 witness: in a concrete three-directory walk the entry of `cat.jpg`
is counted exactly once. -/
theorem C6_exactly_once_witness :
    List.count (mkEntry "./a" "cat.jpg")
        (listResources
          [(".", ["a", "b"], []), ("./a", [], ["cat.jpg", "notes.txt"]),
           ("./b", [], ["dog.png"])]
          ["jpg", "png"])
      = 1 :=
  C6_exactly_once
    [(".", ["a", "b"], []), ("./a", [], ["cat.jpg", "notes.txt"]),
     ("./b", [], ["dog.png"])]
    ["jpg", "png"] "./a" "cat.jpg" [] ["cat.jpg", "notes.txt"]
    (by decide) (by decide) (by decide) (by decide)

/-- C7: the final content of `output_file` is exactly the JSON dump of the
manifest, whatever `output_file` contained before the run: mode `'w'`
truncates, so there is no append and no merge. -/
theorem C7_full_overwrite (walk : List WalkEntry) (e : List String)
    (prior : String) :
    finalOutput walk e prior = jsonDumps (listResources walk e) := rfl

/-- C8: when no reported file passes the extension filter (in particular
when the tree is empty), the run succeeds and `output_file` ends up
containing exactly `[]`. -/
theorem C8_empty_manifest (fs : Option FSTree) (start_from : String)
    (e : List String) (prior : String)
    (h : ∀ t ∈ osWalk fs start_from, ∀ n ∈ t.2.2, allowedCheck e n = false) :
    runListResourcesE fs start_from e prior = Except.ok "[]" := by
  have hempty : listResources (osWalk fs start_from) e = [] := by
    rw [listResources_eq]
    have hfil : (allFiles (osWalk fs start_from)).filter (fun q => allowedCheck e q.2)
        = [] := by
      rw [List.filter_eq_nil_iff]
      intro q hq
      simp only [allFiles, List.mem_flatMap, List.mem_map] at hq
      obtain ⟨t, ht, n, hn, rfl⟩ := hq
      simp [h t ht n hn]
    rw [hfil]
    rfl
  have h2 : runListResources fs start_from e prior = "[]" := by
    unfold runListResources finalOutput
    rw [hempty]
    rfl
  exact congrArg Except.ok h2

/-- C8 witness: a tree holding only `notes.txt` under allowed extensions
`["jpg"]` makes the run write exactly `[]`. -/
theorem C8_empty_manifest_witness :
    runListResourcesE (some (.node [] ["notes.txt"])) "." ["jpg"] "stale"
      = Except.ok "[]" :=
  C8_empty_manifest (some (.node [] ["notes.txt"])) "." ["jpg"] "stale" (by decide)

/-- C9: a file whose name has no `.` has the whole name as its extension
(`name.split('.')[-1]` is the full name), so whenever the allowed set does
not contain that whole name the file contributes nothing to the manifest:
a walk with the file produces the same manifest as the walk without it. -/
theorem C9_extensionless_excluded (root name : String)
    (dirs files e : List String)
    (hdot : '.' ∉ name.data) (hne : name ∉ e) :
    extOf name = name
      ∧ listResources [(root, dirs, name :: files)] e
          = listResources [(root, dirs, files)] e := by
  have hx : extOf name = name := extOf_of_no_dot hdot
  have hchk : allowedCheck e name = false := by
    unfold allowedCheck
    rw [hx]
    simpa using hne
  refine ⟨hx, ?_⟩
  rw [listResources_eq, listResources_eq]
  simp [allFiles, List.filter_cons, hchk]

/-- C9 witness: the dotless file `archive` is its own extension and is
excluded when the allowed set is `["jpg", "png"]`. -/
theorem C9_extensionless_excluded_witness :
    extOf "archive" = "archive"
      ∧ listResources [("./x", [], "archive" :: ["b.png"])] ["jpg", "png"]
          = listResources [("./x", [], ["b.png"])] ["jpg", "png"] :=
  C9_extensionless_excluded "./x" "archive" [] ["b.png"] ["jpg", "png"]
    (by decide) (by decide)

/-- C10: with `start_from = "."` (the hard-coded entry point), a matching
file sitting directly in the root directory gets the entry `"/" ++ name`:
the walk reports its directory as `"."`, whose two characters the `[2:]`
slice removes entirely, so the entry starts with `/` rather than being a
clean relative path. -/
theorem C10_root_slash_entry (t : FSTree) (name : String) (e : List String)
    (hn : name ∈ t.files) (ha : allowedCheck e name = true) :
    mkEntry "." name = "/" ++ name
      ∧ ("/" ++ name) ∈ listResources (osWalk (some t) ".") e := by
  refine ⟨rfl, ?_⟩
  obtain ⟨sd, fs⟩ := t
  have hw : ((".", List.map Prod.fst sd, fs) : WalkEntry)
      ∈ osWalk (some (.node sd fs)) "." := by
    show _ ∈ (".", List.map Prod.fst sd, fs) :: walkForest "." sd
    exact List.mem_cons_self _ _
  exact mem_listResources hw hn ha

/-- C10 witness: `cat.jpg` directly under the root yields the manifest
entry `/cat.jpg`. -/
theorem C10_root_slash_entry_witness :
    mkEntry "." "cat.jpg" = "/" ++ "cat.jpg"
      ∧ ("/" ++ "cat.jpg")
          ∈ listResources (osWalk (some (.node [] ["cat.jpg"])) ".") ["jpg"] :=
  C10_root_slash_entry (.node [] ["cat.jpg"]) "cat.jpg" ["jpg"]
    (by decide) (by decide)
